import Mathlib

/-!
Verification of the evoaug augmentation library (`evoaug/augment.py`).

A batch of one-hot DNA sequences is a tensor of shape (N, A, L): N examples,
A alphabet channels, L positions.  We embed one example as a list of L
columns, each column a list of A rationals (the transpose view used by the
Python code when it slices `seq[:, i:j]` along the length axis), and a batch
as a list of examples.  Floating-point tensor entries are modelled as exact
rationals.

Randomness is made explicit: each `__call__` is embedded as a deterministic
function of the per-example random draws, and the torch samplers
(`torch.randint`, `torch.eye`-row selection via `multinomial`, `torch.rand`)
are embedded as the sets of values they can produce, so that theorems
quantify over all draws the code can make.
-/

abbrev Col := List ℚ

abbrev Seqn := List Col

abbrev Batch := List Seqn

/-- Shape predicate for one example: L columns, each of height A. -/
abbrev seqShape (A L : ℕ) (s : Seqn) : Prop :=
  s.length = L ∧ ∀ c ∈ s, c.length = A

/-- Shape predicate for a batch: N examples, each of shape (A, L). -/
abbrev batchShape (N A L : ℕ) (x : Batch) : Prop :=
  x.length = N ∧ ∀ s ∈ x, seqShape A L s

/-- A one-hot column: every entry is 0 or 1 and exactly one entry is 1. -/
abbrev IsOneHotCol (c : Col) : Prop :=
  (∀ v ∈ c, v = 0 ∨ v = 1) ∧ c.count 1 = 1

/-- Every column of the example is one-hot. -/
abbrev oneHotSeq (s : Seqn) : Prop := ∀ c ∈ s, IsOneHotCol c

/-- Every example of the batch is one-hot at every position. -/
abbrev oneHotBatch (x : Batch) : Prop := ∀ s ∈ x, oneHotSeq s

/-- Row k of `torch.eye(A)`: the k-th standard basis vector of length A. -/
def torch.eyeRow (A k : ℕ) : Col :=
  (List.range A).map (fun i => if i = k then 1 else 0)

/-- The random one-hot fragments drawn by
`a[p.multinomial(len, replacement=True)].transpose(0,1)` when the sampler
succeeds: a sequence of `len` columns, each a row of `torch.eye A`.  The
error torch.multinomial raises at `len = 0` is modelled separately by
`torch.multinomial`. -/
abbrev eyeDraw (A len : ℕ) (s : Seqn) : Prop :=
  s.length = len ∧ ∀ c ∈ s, ∃ k < A, c = torch.eyeRow A k

/-- torch.multinomial(p, num_samples, replacement=True) with p uniform over
A symbols: the set of index sequences it can return, namely all lists of
num_samples indices below A.  It raises 'cannot sample n_sample <= 0
samples' when num_samples = 0, modelled as `none`. -/
def torch.multinomial (A num_samples : ℕ) : Option (Set (List ℕ)) :=
  if 0 < num_samples then
    some {ks | ks.length = num_samples ∧ ∀ k ∈ ks, k < A}
  else none

/-- torch.randint(lo, hi): the set of integers it can return, namely
[lo, hi); it raises an error (here: `none`) when lo ≥ hi. -/
def torch.randint (lo hi : ℤ) : Option (Finset ℤ) :=
  if lo < hi then some (Finset.Ico lo hi) else none

/-- torch.flip(s, dims=[0,1]) on one (A, L) example: reverse both the
alphabet axis and the length axis.  In the column-list view this reverses
the column order and each individual column. -/
def torch.flip01 (s : Seqn) : Seqn :=
  (s.map List.reverse).reverse

/-- torch.roll(s, shift, -1): circular rotation along the length axis;
the element at position i of the result comes from position (i - shift)
mod L of the input.  `List.rotate` rotates toward lower indices, so we
rotate by (-shift) mod L. -/
def torch.roll (s : Seqn) (shift : ℤ) : Seqn :=
  s.rotate ((-shift % (s.length : ℤ)).toNat)

/-- Pointwise zip of four lists, truncating at the shortest (the semantics
of Python `zip`, which each `__call__` loop uses). -/
def zipWith4 (f : α → β → γ → δ → ε) : List α → List β → List γ → List δ → List ε
  | a :: as, b :: bs, c :: cs, d :: ds => f a b c d :: zipWith4 f as bs cs ds
  | _, _, _, _ => []

/-- Pointwise zip of three lists, truncating at the shortest. -/
def zipWith3 (f : α → β → γ → δ) : List α → List β → List γ → List δ
  | a :: as, b :: bs, c :: cs => f a b c :: zipWith3 f as bs cs
  | _, _, _ => []

/-! ## RandomDeletion -/

structure RandomDeletion where
  delete_min : ℕ
  delete_max : ℕ
deriving DecidableEq

/-- `RandomDeletion.__init__`: stores the two bounds, with no validation. -/
def RandomDeletion.init (delete_min delete_max : ℕ) : RandomDeletion :=
  ⟨delete_min, delete_max⟩

/-- Modelled from the spec (not the source): the spec's §6/§7 description of
construction-time validation, which would reject `delete_min > delete_max`
with a configuration error.  Used to compare against the source's
`RandomDeletion.init`, which never validates. -/
def RandomDeletion.initChecked (delete_min delete_max : ℕ) :
    Option RandomDeletion :=
  if delete_min ≤ delete_max then some ⟨delete_min, delete_max⟩ else none

/-- The set of deletion lengths `torch.randint(delete_min, delete_max + 1, (N,))`
can draw for one example (an error when the range is empty). -/
def RandomDeletion.lenSet (cfg : RandomDeletion) : Option (Finset ℤ) :=
  torch.randint (cfg.delete_min : ℤ) ((cfg.delete_max : ℤ) + 1)

/-- The set of deletion start indices `torch.randint(L - delete_max + 1, (N,))`
can draw for one example. -/
def RandomDeletion.indSet (cfg : RandomDeletion) (L : ℕ) : Option (Finset ℤ) :=
  torch.randint 0 ((L : ℤ) - (cfg.delete_max : ℤ) + 1)

/-- The per-example padding sampler at line 61 of `RandomDeletion.__call__`:
`a[p.multinomial(self.delete_max, replacement=True)].transpose(0,1)` draws
delete_max rows of eye(A); the index draw itself is `torch.multinomial`,
which runs before anything else in the call and errors when
delete_max = 0. -/
def RandomDeletion.paddingDraws (cfg : RandomDeletion) (A : ℕ) : Option (Set (List ℕ)) :=
  torch.multinomial A cfg.delete_max

/-- `torch.div(delete_len, 2, rounding_mode='floor')`: number of random
padding columns placed at the front of the sequence. -/
def RandomDeletion.padBegin (delete_len : ℕ) : ℕ := delete_len / 2

/-- `delete_len - pad_begin_index`: number of random padding columns placed
at the back of the sequence. -/
def RandomDeletion.padEnd (delete_len : ℕ) : ℕ :=
  delete_len - RandomDeletion.padBegin delete_len

/-- Body of the per-example loop of `RandomDeletion.__call__`:
`cat([pad[:, :pad_begin], seq[:, :ind], seq[:, ind+len:], pad[:, delete_max-pad_end:]], -1)`. -/
def RandomDeletion.applySeq (delete_max : ℕ) (pad : Seqn)
    (delete_len delete_ind : ℕ) (seq : Seqn) : Seqn :=
  pad.take (RandomDeletion.padBegin delete_len)
    ++ seq.take delete_ind
    ++ seq.drop (delete_ind + delete_len)
    ++ pad.drop (delete_max - RandomDeletion.padEnd delete_len)

/-- `RandomDeletion.__call__` as a function of the random draws: the
per-example padding fragments, deletion lengths and deletion start
indices. -/
def RandomDeletion.call (cfg : RandomDeletion) (pads : List Seqn)
    (lens inds : List ℕ) (x : Batch) : Batch :=
  zipWith4 (fun pad len ind seq => RandomDeletion.applySeq cfg.delete_max pad len ind seq)
    pads lens inds x

/-- The draws `RandomDeletion.__call__` can actually make for a batch of
shape (N, A, L): N padding fragments of delete_max one-hot columns, N
lengths in [delete_min, delete_max], N start indices in [0, L - delete_max]. -/
abbrev RandomDeletion.validDraws (cfg : RandomDeletion) (N A L : ℕ)
    (pads : List Seqn) (lens inds : List ℕ) : Prop :=
  pads.length = N ∧ (∀ p ∈ pads, eyeDraw A cfg.delete_max p) ∧
  lens.length = N ∧ (∀ l ∈ lens, cfg.delete_min ≤ l ∧ l ≤ cfg.delete_max) ∧
  inds.length = N ∧ (∀ i ∈ inds, i + cfg.delete_max ≤ L)

/-! ## RandomInsertion -/

structure RandomInsertion where
  insert_min : ℕ
  insert_max : ℕ
deriving DecidableEq

/-- `RandomInsertion.__init__`: stores the two bounds, with no validation. -/
def RandomInsertion.init (insert_min insert_max : ℕ) : RandomInsertion :=
  ⟨insert_min, insert_max⟩

/-- Modelled from the spec (not the source): construction-time validation
rejecting `insert_min > insert_max`, for comparison with the source's
`RandomInsertion.init`. -/
def RandomInsertion.initChecked (insert_min insert_max : ℕ) :
    Option RandomInsertion :=
  if insert_min ≤ insert_max then some ⟨insert_min, insert_max⟩ else none

/-- The set of insertion lengths `torch.randint(insert_min, insert_max + 1, (N,))`
can draw for one example. -/
def RandomInsertion.lenSet (cfg : RandomInsertion) : Option (Finset ℤ) :=
  torch.randint (cfg.insert_min : ℤ) ((cfg.insert_max : ℤ) + 1)

/-- The set of insertion indices `torch.randint(L, (N,))` can draw for one
example. -/
def RandomInsertion.indSet (L : ℕ) : Option (Finset ℤ) :=
  torch.randint 0 (L : ℤ)

/-- Body of the per-example loop of `RandomInsertion.__call__`:
front slice of the fragment, sequence head, inserted slice, sequence tail,
back slice of the same fragment. -/
def RandomInsertion.applySeq (insert_max : ℕ) (insertion : Seqn)
    (insert_len insert_ind : ℕ) (seq : Seqn) : Seqn :=
  let insert_beginning_len := (insert_max - insert_len) / 2
  insertion.take insert_beginning_len
    ++ seq.take insert_ind
    ++ ((insertion.drop insert_beginning_len).take insert_len)
    ++ seq.drop insert_ind
    ++ ((insertion.drop (insert_beginning_len + insert_len)).take
          (insert_max - (insert_beginning_len + insert_len)))

/-- `RandomInsertion.__call__` as a function of the random draws. -/
def RandomInsertion.call (cfg : RandomInsertion) (insertions : List Seqn)
    (lens inds : List ℕ) (x : Batch) : Batch :=
  zipWith4 (fun insertion len ind seq =>
      RandomInsertion.applySeq cfg.insert_max insertion len ind seq)
    insertions lens inds x

/-- The draws `RandomInsertion.__call__` can actually make for a batch of
shape (N, A, L): N fragments of insert_max one-hot columns, N lengths in
[insert_min, insert_max], N insertion indices in [0, L - 1]. -/
abbrev RandomInsertion.validDraws (cfg : RandomInsertion) (N A L : ℕ)
    (insertions : List Seqn) (lens inds : List ℕ) : Prop :=
  insertions.length = N ∧ (∀ p ∈ insertions, eyeDraw A cfg.insert_max p) ∧
  lens.length = N ∧ (∀ l ∈ lens, cfg.insert_min ≤ l ∧ l ≤ cfg.insert_max) ∧
  inds.length = N ∧ (∀ i ∈ inds, i < L)

/-! ## RandomTranslocation -/

structure RandomTranslocation where
  shift_min : ℕ
  shift_max : ℕ
deriving DecidableEq

/-- `RandomTranslocation.__init__`: stores the two bounds, with no
validation. -/
def RandomTranslocation.init (shift_min shift_max : ℕ) : RandomTranslocation :=
  ⟨shift_min, shift_max⟩

/-- The set of shift magnitudes `torch.randint(shift_min, shift_max + 1, (N,))`
can draw for one example (before the random sign flip). -/
def RandomTranslocation.shiftSet (cfg : RandomTranslocation) : Option (Finset ℤ) :=
  torch.randint (cfg.shift_min : ℤ) ((cfg.shift_max : ℤ) + 1)

/-- `RandomTranslocation.__call__` as a function of the signed per-example
shifts: `torch.roll(x[i], shift, -1)` for each example. -/
def RandomTranslocation.call (shifts : List ℤ) (x : Batch) : Batch :=
  List.zipWith (fun shift seq => torch.roll seq shift) shifts x

/-! ## RandomInversion -/

structure RandomInversion where
  invert_min : ℕ
  invert_max : ℕ
deriving DecidableEq

/-- `RandomInversion.__init__`: stores the two bounds, with no validation. -/
def RandomInversion.init (invert_min invert_max : ℕ) : RandomInversion :=
  ⟨invert_min, invert_max⟩

/-- The set of inversion lengths `torch.randint(invert_min, invert_max + 1, (N,))`
can draw for one example. -/
def RandomInversion.lenSet (cfg : RandomInversion) : Option (Finset ℤ) :=
  torch.randint (cfg.invert_min : ℤ) ((cfg.invert_max : ℤ) + 1)

/-- The set of inversion start indices `torch.randint(L - invert_max + 1, (N,))`
can draw for one example. -/
def RandomInversion.indSet (cfg : RandomInversion) (L : ℕ) : Option (Finset ℤ) :=
  torch.randint 0 ((L : ℤ) - (cfg.invert_max : ℤ) + 1)

/-- Body of the per-example loop of `RandomInversion.__call__`:
`cat([seq[:, :ind], flip(seq[:, ind:ind+len], dims=[0,1]), seq[:, ind+len:]], -1)`. -/
def RandomInversion.applySeq (inversion_len inversion_ind : ℕ) (seq : Seqn) : Seqn :=
  seq.take inversion_ind
    ++ torch.flip01 ((seq.drop inversion_ind).take inversion_len)
    ++ seq.drop (inversion_ind + inversion_len)

/-- `RandomInversion.__call__` as a function of the random draws. -/
def RandomInversion.call (lens inds : List ℕ) (x : Batch) : Batch :=
  zipWith3 (fun len ind seq => RandomInversion.applySeq len ind seq) lens inds x

/-- The draws `RandomInversion.__call__` can actually make for a batch of
shape (N, A, L). -/
abbrev RandomInversion.validDraws (cfg : RandomInversion) (N L : ℕ)
    (lens inds : List ℕ) : Prop :=
  lens.length = N ∧ (∀ l ∈ lens, cfg.invert_min ≤ l ∧ l ≤ cfg.invert_max) ∧
  inds.length = N ∧ (∀ i ∈ inds, i + cfg.invert_max ≤ L)

/-! ## RandomMutation -/

structure RandomMutation where
  mutate_frac : ℚ
deriving DecidableEq

/-- `RandomMutation.__init__`: stores the fraction, with no validation. -/
def RandomMutation.init (mutate_frac : ℚ) : RandomMutation := ⟨mutate_frac⟩

/-- Python's built-in `round`: round half to even.  The float arithmetic of
the source is modelled exactly over ℚ. -/
def pythonRound (q : ℚ) : ℤ :=
  if q - ⌊q⌋ < 1/2 then ⌊q⌋
  else if 1/2 < q - ⌊q⌋ then ⌊q⌋ + 1
  else if ⌊q⌋ % 2 = 0 then ⌊q⌋ else ⌊q⌋ + 1

/-- `round(self.mutate_frac / 0.75 * L)`: the number of positions sampled
for substitution per sequence. -/
def RandomMutation.numMutations (mutate_frac : ℚ) (L : ℕ) : ℤ :=
  pythonRound (mutate_frac / (3/4) * (L : ℚ))

/-- `torch.argsort(torch.rand(N,L))[:, :num_mutations]` for one example:
argsort of L distinct random keys is some permutation of `range L`; the
selected positions are its first `num_mutations` entries. -/
def RandomMutation.mutationInds (num_mutations : ℕ) (perm : List ℕ) : List ℕ :=
  perm.take num_mutations

/-- Per-example mutation step `x_aug[i,:,mutation_inds[i]] = mutations[i]`:
each selected position receives the corresponding random one-hot column. -/
def RandomMutation.applySeq (inds : List ℕ) (muts : Seqn) (seq : Seqn) : Seqn :=
  (inds.zip muts).foldl (fun s pm => s.set pm.1 pm.2) seq

/-- `RandomMutation.__call__` as a function of the random draws: per-example
selected positions and per-example random one-hot replacement columns. -/
def RandomMutation.call (indss : List (List ℕ)) (mutss : List Seqn) (x : Batch) : Batch :=
  zipWith3 (fun inds muts seq => RandomMutation.applySeq inds muts seq) indss mutss x

/-! ## RandomRC -/

structure RandomRC where
  rc_prob : ℚ
deriving DecidableEq

/-- `RandomRC.__init__`: stores the probability, with no validation. -/
def RandomRC.init (rc_prob : ℚ) : RandomRC := ⟨rc_prob⟩

/-- `RandomRC.__call__` as a function of the `torch.rand` draws r (one value
in [0,1) per example): examples with r < rc_prob are flipped along both the
alphabet and length axes (`torch.flip(_, dims=[1,2])` on the sub-batch). -/
def RandomRC.call (rc_prob : ℚ) (r : List ℚ) (x : Batch) : Batch :=
  List.zipWith (fun v seq => if v < rc_prob then torch.flip01 seq else seq) r x

/-! ## RandomNoise -/

structure RandomNoise where
  noise_mean : ℚ
  noise_std : ℚ
deriving DecidableEq

/-- `RandomNoise.__init__`: stores mean and std, with no validation. -/
def RandomNoise.init (noise_mean noise_std : ℚ) : RandomNoise :=
  ⟨noise_mean, noise_std⟩

/-- `RandomNoise.__call__` as a function of the sampled noise tensor:
`x + torch.normal(mean, std, x.shape)`, elementwise addition. -/
def RandomNoise.call (noise : Batch) (x : Batch) : Batch :=
  List.zipWith (fun seq nseq =>
    List.zipWith (fun c nc => List.zipWith (fun a b => a + b) c nc) seq nseq) x noise

/-! ## Helper lemmas about the zip combinators -/

lemma zipWith4_cons (f : α → β → γ → δ → ε) (a : α) (as : List α) (b : β) (bs : List β)
    (c : γ) (cs : List γ) (d : δ) (ds : List δ) :
    zipWith4 f (a :: as) (b :: bs) (c :: cs) (d :: ds) = f a b c d :: zipWith4 f as bs cs ds := rfl

lemma zipWith4_nil (f : α → β → γ → δ → ε) (bs : List β) (cs : List γ) (ds : List δ) :
    zipWith4 f [] bs cs ds = [] := rfl

lemma zipWith4_length (f : α → β → γ → δ → ε) :
    ∀ (N : ℕ) (as : List α) (bs : List β) (cs : List γ) (ds : List δ),
      as.length = N → bs.length = N → cs.length = N → ds.length = N →
      (zipWith4 f as bs cs ds).length = N := by
  intro N as
  induction as generalizing N with
  | nil => intro bs cs ds ha _ _ _; simp at ha; simp [zipWith4, ← ha]
  | cons a as ih =>
    intro bs cs ds ha hb hc hd
    cases bs with
    | nil => simp at ha hb; omega
    | cons b bs =>
      cases cs with
      | nil => simp at ha hc; omega
      | cons c cs =>
        cases ds with
        | nil => simp at ha hd; omega
        | cons d ds =>
          simp at ha hb hc hd
          cases N with
          | zero => omega
          | succ M =>
            rw [zipWith4_cons]
            simp only [List.length_cons]
            rw [ih M bs cs ds (by omega) (by omega) (by omega) (by omega)]

lemma zipWith4_forall_mem (f : α → β → γ → δ → ε) :
    ∀ (as : List α) (bs : List β) (cs : List γ) (ds : List δ) (e : ε),
      e ∈ zipWith4 f as bs cs ds →
      ∃ a ∈ as, ∃ b ∈ bs, ∃ c ∈ cs, ∃ d ∈ ds, e = f a b c d := by
  intro as
  induction as with
  | nil => intro bs cs ds e he; rw [zipWith4_nil] at he; simp at he
  | cons a as ih =>
    intro bs cs ds e he
    cases bs with
    | nil => simp [zipWith4] at he
    | cons b bs =>
      cases cs with
      | nil => simp [zipWith4] at he
      | cons c cs =>
        cases ds with
        | nil => simp [zipWith4] at he
        | cons d ds =>
          rw [zipWith4_cons] at he
          rcases List.mem_cons.mp he with h | h
          · exact ⟨a, by simp, b, by simp, c, by simp, d, by simp, h⟩
          · obtain ⟨a1, ha1, b1, hb1, c1, hc1, d1, hd1, he1⟩ := ih bs cs ds e h
            exact ⟨a1, List.mem_cons_of_mem _ ha1, b1, List.mem_cons_of_mem _ hb1,
                   c1, List.mem_cons_of_mem _ hc1, d1, List.mem_cons_of_mem _ hd1, he1⟩

lemma zipWith4_eq_fourth (f : α → β → γ → δ → δ) :
    ∀ (as : List α) (bs : List β) (cs : List γ) (ds : List δ),
      as.length = ds.length → bs.length = ds.length → cs.length = ds.length →
      (∀ a ∈ as, ∀ b ∈ bs, ∀ c ∈ cs, ∀ d ∈ ds, f a b c d = d) →
      zipWith4 f as bs cs ds = ds := by
  intro as
  induction as with
  | nil =>
    intro bs cs ds ha _ _ _
    have hds : ds = [] := List.length_eq_zero.mp ha.symm
    simp [zipWith4, hds]
  | cons a as ih =>
    intro bs cs ds ha hb hc hf
    cases ds with
    | nil => simp at ha
    | cons d ds =>
      cases bs with
      | nil => simp at hb
      | cons b bs =>
        cases cs with
        | nil => simp at hc
        | cons c cs =>
          rw [zipWith4_cons]
          simp only [List.length_cons] at ha hb hc
          rw [hf a (by simp) b (by simp) c (by simp) d (by simp),
              ih bs cs ds (by omega) (by omega) (by omega)]
          intro a1 ha1 b1 hb1 c1 hc1 d1 hd1
          exact hf a1 (List.mem_cons_of_mem _ ha1) b1 (List.mem_cons_of_mem _ hb1)
            c1 (List.mem_cons_of_mem _ hc1) d1 (List.mem_cons_of_mem _ hd1)

lemma zipWith3_cons (f : α → β → γ → δ) (a : α) (as : List α) (b : β) (bs : List β)
    (c : γ) (cs : List γ) :
    zipWith3 f (a :: as) (b :: bs) (c :: cs) = f a b c :: zipWith3 f as bs cs := rfl

lemma zipWith3_length (f : α → β → γ → δ) :
    ∀ (N : ℕ) (as : List α) (bs : List β) (cs : List γ),
      as.length = N → bs.length = N → cs.length = N →
      (zipWith3 f as bs cs).length = N := by
  intro N as
  induction as generalizing N with
  | nil => intro bs cs ha _ _; simp at ha; simp [zipWith3, ← ha]
  | cons a as ih =>
    intro bs cs ha hb hc
    cases bs with
    | nil => simp at ha hb; omega
    | cons b bs =>
      cases cs with
      | nil => simp at ha hc; omega
      | cons c cs =>
        simp at ha hb hc
        cases N with
        | zero => omega
        | succ M =>
          rw [zipWith3_cons]
          simp only [List.length_cons]
          rw [ih M bs cs (by omega) (by omega) (by omega)]

lemma zipWith3_forall_mem (f : α → β → γ → δ) :
    ∀ (as : List α) (bs : List β) (cs : List γ) (e : δ),
      e ∈ zipWith3 f as bs cs →
      ∃ a ∈ as, ∃ b ∈ bs, ∃ c ∈ cs, e = f a b c := by
  intro as
  induction as with
  | nil => intro bs cs e he; simp [zipWith3] at he
  | cons a as ih =>
    intro bs cs e he
    cases bs with
    | nil => simp [zipWith3] at he
    | cons b bs =>
      cases cs with
      | nil => simp [zipWith3] at he
      | cons c cs =>
        rw [zipWith3_cons] at he
        rcases List.mem_cons.mp he with h | h
        · exact ⟨a, by simp, b, by simp, c, by simp, h⟩
        · obtain ⟨a1, ha1, b1, hb1, c1, hc1, he1⟩ := ih bs cs e h
          exact ⟨a1, List.mem_cons_of_mem _ ha1, b1, List.mem_cons_of_mem _ hb1,
                 c1, List.mem_cons_of_mem _ hc1, he1⟩

lemma torch.eyeRow_length (A k : ℕ) : (torch.eyeRow A k).length = A := by
  simp [torch.eyeRow]

lemma torch.eyeRow_succ (A k : ℕ) :
    torch.eyeRow (A + 1) k = torch.eyeRow A k ++ [if A = k then 1 else 0] := by
  simp [torch.eyeRow, List.range_succ]

lemma torch.eyeRow_count (A k : ℕ) :
    (torch.eyeRow A k).count 1 = if k < A then 1 else 0 := by
  induction A with
  | zero => simp [torch.eyeRow]
  | succ A ih =>
    rw [torch.eyeRow_succ, List.count_append, ih]
    rcases Nat.lt_trichotomy k A with h | h | h
    · have h1 : k < A + 1 := by omega
      have h2 : A ≠ k := by omega
      simp [h, h1, h2]
    · subst h
      simp
    · have h1 : ¬ k < A := by omega
      have h2 : ¬ k < A + 1 := by omega
      have h3 : A ≠ k := by omega
      simp [h1, h2, h3]

lemma torch.eyeRow_oneHot (A k : ℕ) (hk : k < A) : IsOneHotCol (torch.eyeRow A k) := by
  constructor
  · intro v hv
    simp only [torch.eyeRow, List.mem_map, List.mem_range] at hv
    obtain ⟨i, _, hi⟩ := hv
    by_cases h : i = k
    · right; rw [← hi, if_pos h]
    · left; rw [← hi, if_neg h]
  · rw [torch.eyeRow_count, if_pos hk]

lemma eyeDraw_shape {A len : ℕ} {p : Seqn} (h : eyeDraw A len p) : seqShape A len p := by
  refine ⟨h.1, fun c hc => ?_⟩
  obtain ⟨k, _, rfl⟩ := h.2 c hc
  exact torch.eyeRow_length A k

lemma eyeDraw_oneHot {A len : ℕ} {p : Seqn} (h : eyeDraw A len p) : oneHotSeq p := by
  intro c hc
  obtain ⟨k, hk, rfl⟩ := h.2 c hc
  exact torch.eyeRow_oneHot A k hk

lemma IsOneHotCol.rev {c : Col} (h : IsOneHotCol c) : IsOneHotCol c.reverse :=
  ⟨fun v hv => h.1 v (List.mem_reverse.mp hv),
   by rw [List.count_reverse]; exact h.2⟩

lemma torch.flip01_length (s : Seqn) : (torch.flip01 s).length = s.length := by
  simp [torch.flip01]

lemma torch.flip01_forall_mem {s : Seqn} {c : Col} (h : c ∈ torch.flip01 s) :
    ∃ c0 ∈ s, c = c0.reverse := by
  simp only [torch.flip01, List.mem_reverse, List.mem_map] at h
  obtain ⟨c0, hc0, rfl⟩ := h
  exact ⟨c0, hc0, rfl⟩

lemma torch.flip01_flip01 (s : Seqn) : torch.flip01 (torch.flip01 s) = s := by
  simp [torch.flip01, List.map_reverse, List.map_map]

lemma torch.flip01_shape {A L : ℕ} {s : Seqn} (h : seqShape A L s) :
    seqShape A L (torch.flip01 s) := by
  refine ⟨by rw [torch.flip01_length]; exact h.1, fun c hc => ?_⟩
  obtain ⟨c0, hc0, rfl⟩ := torch.flip01_forall_mem hc
  rw [List.length_reverse]
  exact h.2 c0 hc0

lemma torch.flip01_oneHot {s : Seqn} (h : oneHotSeq s) : oneHotSeq (torch.flip01 s) := by
  intro c hc
  obtain ⟨c0, hc0, rfl⟩ := torch.flip01_forall_mem hc
  exact (h c0 hc0).rev

lemma torch.roll_shape {A L : ℕ} {s : Seqn} (shift : ℤ) (h : seqShape A L s) :
    seqShape A L (torch.roll s shift) := by
  refine ⟨by rw [torch.roll, List.length_rotate]; exact h.1, fun c hc => ?_⟩
  exact h.2 c (List.mem_rotate.mp hc)

lemma torch.roll_oneHot {s : Seqn} (shift : ℤ) (h : oneHotSeq s) :
    oneHotSeq (torch.roll s shift) := by
  intro c hc
  exact h c (List.mem_rotate.mp hc)

lemma zipWith_forall_mem (f : α → β → γ) :
    ∀ (as : List α) (bs : List β) (e : γ),
      e ∈ List.zipWith f as bs → ∃ a ∈ as, ∃ b ∈ bs, e = f a b := by
  intro as
  induction as with
  | nil => intro bs e he; simp at he
  | cons a as ih =>
    intro bs e he
    cases bs with
    | nil => simp at he
    | cons b bs =>
      rw [List.zipWith_cons_cons] at he
      rcases List.mem_cons.mp he with h | h
      · exact ⟨a, by simp, b, by simp, h⟩
      · obtain ⟨a1, ha1, b1, hb1, he1⟩ := ih bs e h
        exact ⟨a1, List.mem_cons_of_mem _ ha1, b1, List.mem_cons_of_mem _ hb1, he1⟩

/-! ## RandomDeletion: shape and one-hot preservation -/

lemma deletion_applySeq_shape {A L delete_max delete_len delete_ind : ℕ}
    {pad seq : Seqn}
    (hpadlen : pad.length = delete_max) (hpadcols : ∀ c ∈ pad, c.length = A)
    (hs : seqShape A L seq)
    (hlen : delete_len ≤ delete_max) (hind : delete_ind + delete_max ≤ L) :
    seqShape A L (RandomDeletion.applySeq delete_max pad delete_len delete_ind seq) := by
  obtain ⟨hsl, hsc⟩ := hs
  constructor
  · simp [RandomDeletion.applySeq, RandomDeletion.padBegin, RandomDeletion.padEnd,
      hpadlen, hsl]
    omega
  · intro c hc
    simp only [RandomDeletion.applySeq, List.mem_append] at hc
    rcases hc with ((hc | hc) | hc) | hc
    · exact hpadcols c (List.take_subset _ _ hc)
    · exact hsc c (List.take_subset _ _ hc)
    · exact hsc c (List.drop_subset _ _ hc)
    · exact hpadcols c (List.drop_subset _ _ hc)

lemma deletion_applySeq_oneHot {delete_max delete_len delete_ind : ℕ}
    {pad seq : Seqn} (hpad : oneHotSeq pad) (hs : oneHotSeq seq) :
    oneHotSeq (RandomDeletion.applySeq delete_max pad delete_len delete_ind seq) := by
  intro c hc
  simp only [RandomDeletion.applySeq, List.mem_append] at hc
  rcases hc with ((hc | hc) | hc) | hc
  · exact hpad c (List.take_subset _ _ hc)
  · exact hs c (List.take_subset _ _ hc)
  · exact hs c (List.drop_subset _ _ hc)
  · exact hpad c (List.drop_subset _ _ hc)

lemma deletion_call_shape {cfg : RandomDeletion} {N A L : ℕ}
    {pads : List Seqn} {lens inds : List ℕ} {x : Batch}
    (hd : cfg.validDraws N A L pads lens inds) (hx : batchShape N A L x) :
    batchShape N A L (RandomDeletion.call cfg pads lens inds x) := by
  obtain ⟨hp, hpc, hl, hlb, hi, hib⟩ := hd
  obtain ⟨hxl, hxs⟩ := hx
  constructor
  · exact zipWith4_length _ N _ _ _ _ hp hl hi hxl
  · intro s hs
    obtain ⟨pad, hpad, len, hlen, ind, hind, seq, hseq, rfl⟩ :=
      zipWith4_forall_mem _ _ _ _ _ _ hs
    exact deletion_applySeq_shape (hpc pad hpad).1
      (eyeDraw_shape (hpc pad hpad)).2 (hxs seq hseq)
      (hlb len hlen).2 (hib ind hind)

lemma deletion_call_oneHot {cfg : RandomDeletion} {N A L : ℕ}
    {pads : List Seqn} {lens inds : List ℕ} {x : Batch}
    (hd : cfg.validDraws N A L pads lens inds) (hx : oneHotBatch x) :
    oneHotBatch (RandomDeletion.call cfg pads lens inds x) := by
  obtain ⟨hp, hpc, hl, hlb, hi, hib⟩ := hd
  intro s hs
  obtain ⟨pad, hpad, len, hlen, ind, hind, seq, hseq, rfl⟩ :=
    zipWith4_forall_mem _ _ _ _ _ _ hs
  exact deletion_applySeq_oneHot (eyeDraw_oneHot (hpc pad hpad)) (hx seq hseq)

/-! ## RandomInsertion: shape and one-hot preservation -/

lemma insertion_applySeq_shape {A L insert_max insert_len insert_ind : ℕ}
    {insertion seq : Seqn}
    (hinslen : insertion.length = insert_max) (hinscols : ∀ c ∈ insertion, c.length = A)
    (hs : seqShape A L seq)
    (hlen : insert_len ≤ insert_max) (hind : insert_ind < L) :
    seqShape A (L + insert_max)
      (RandomInsertion.applySeq insert_max insertion insert_len insert_ind seq) := by
  obtain ⟨hsl, hsc⟩ := hs
  constructor
  · simp [RandomInsertion.applySeq, hinslen, hsl]
    omega
  · intro c hc
    simp only [RandomInsertion.applySeq, List.mem_append] at hc
    rcases hc with (((hc | hc) | hc) | hc) | hc
    · exact hinscols c (List.take_subset _ _ hc)
    · exact hsc c (List.take_subset _ _ hc)
    · exact hinscols c (List.drop_subset _ _ (List.take_subset _ _ hc))
    · exact hsc c (List.drop_subset _ _ hc)
    · exact hinscols c (List.drop_subset _ _ (List.take_subset _ _ hc))

lemma insertion_applySeq_oneHot {insert_max insert_len insert_ind : ℕ}
    {insertion seq : Seqn} (hins : oneHotSeq insertion) (hs : oneHotSeq seq) :
    oneHotSeq (RandomInsertion.applySeq insert_max insertion insert_len insert_ind seq) := by
  intro c hc
  simp only [RandomInsertion.applySeq, List.mem_append] at hc
  rcases hc with (((hc | hc) | hc) | hc) | hc
  · exact hins c (List.take_subset _ _ hc)
  · exact hs c (List.take_subset _ _ hc)
  · exact hins c (List.drop_subset _ _ (List.take_subset _ _ hc))
  · exact hs c (List.drop_subset _ _ hc)
  · exact hins c (List.drop_subset _ _ (List.take_subset _ _ hc))

lemma insertion_call_shape {cfg : RandomInsertion} {N A L : ℕ}
    {insertions : List Seqn} {lens inds : List ℕ} {x : Batch}
    (hd : cfg.validDraws N A L insertions lens inds) (hx : batchShape N A L x) :
    batchShape N A (L + cfg.insert_max)
      (RandomInsertion.call cfg insertions lens inds x) := by
  obtain ⟨hp, hpc, hl, hlb, hi, hib⟩ := hd
  obtain ⟨hxl, hxs⟩ := hx
  constructor
  · exact zipWith4_length _ N _ _ _ _ hp hl hi hxl
  · intro s hs
    obtain ⟨ins, hins, len, hlen, ind, hind, seq, hseq, rfl⟩ :=
      zipWith4_forall_mem _ _ _ _ _ _ hs
    exact insertion_applySeq_shape (hpc ins hins).1
      (eyeDraw_shape (hpc ins hins)).2 (hxs seq hseq)
      (hlb len hlen).2 (hib ind hind)

lemma insertion_call_oneHot {cfg : RandomInsertion} {N A L : ℕ}
    {insertions : List Seqn} {lens inds : List ℕ} {x : Batch}
    (hd : cfg.validDraws N A L insertions lens inds) (hx : oneHotBatch x) :
    oneHotBatch (RandomInsertion.call cfg insertions lens inds x) := by
  obtain ⟨hp, hpc, hl, hlb, hi, hib⟩ := hd
  intro s hs
  obtain ⟨ins, hins, len, hlen, ind, hind, seq, hseq, rfl⟩ :=
    zipWith4_forall_mem _ _ _ _ _ _ hs
  exact insertion_applySeq_oneHot (eyeDraw_oneHot (hpc ins hins)) (hx seq hseq)

/-! ## RandomInversion: shape and one-hot preservation -/

lemma inversion_applySeq_shape {A L inversion_len inversion_ind : ℕ}
    {seq : Seqn} (hs : seqShape A L seq)
    (hind : inversion_ind + inversion_len ≤ L) :
    seqShape A L (RandomInversion.applySeq inversion_len inversion_ind seq) := by
  obtain ⟨hsl, hsc⟩ := hs
  constructor
  · simp [RandomInversion.applySeq, torch.flip01_length, hsl]
    omega
  · intro c hc
    simp only [RandomInversion.applySeq, List.mem_append] at hc
    rcases hc with (hc | hc) | hc
    · exact hsc c (List.take_subset _ _ hc)
    · obtain ⟨c0, hc0, rfl⟩ := torch.flip01_forall_mem hc
      rw [List.length_reverse]
      exact hsc c0 (List.drop_subset _ _ (List.take_subset _ _ hc0))
    · exact hsc c (List.drop_subset _ _ hc)

lemma inversion_applySeq_oneHot {inversion_len inversion_ind : ℕ}
    {seq : Seqn} (hs : oneHotSeq seq) :
    oneHotSeq (RandomInversion.applySeq inversion_len inversion_ind seq) := by
  intro c hc
  simp only [RandomInversion.applySeq, List.mem_append] at hc
  rcases hc with (hc | hc) | hc
  · exact hs c (List.take_subset _ _ hc)
  · obtain ⟨c0, hc0, rfl⟩ := torch.flip01_forall_mem hc
    exact (hs c0 (List.drop_subset _ _ (List.take_subset _ _ hc0))).rev
  · exact hs c (List.drop_subset _ _ hc)

lemma inversion_call_shape {cfg : RandomInversion} {N A L : ℕ}
    {lens inds : List ℕ} {x : Batch}
    (hd : cfg.validDraws N L lens inds) (hx : batchShape N A L x) :
    batchShape N A L (RandomInversion.call lens inds x) := by
  obtain ⟨hl, hlb, hi, hib⟩ := hd
  obtain ⟨hxl, hxs⟩ := hx
  constructor
  · exact zipWith3_length _ N _ _ _ hl hi hxl
  · intro s hs
    obtain ⟨len, hlen, ind, hind, seq, hseq, rfl⟩ := zipWith3_forall_mem _ _ _ _ _ hs
    have h1 : ind + len ≤ L := by
      have := hib ind hind
      have := (hlb len hlen).2
      omega
    exact inversion_applySeq_shape (hxs seq hseq) h1

lemma inversion_call_oneHot {lens inds : List ℕ} {x : Batch}
    (hx : oneHotBatch x) : oneHotBatch (RandomInversion.call lens inds x) := by
  intro s hs
  obtain ⟨len, hlen, ind, hind, seq, hseq, rfl⟩ := zipWith3_forall_mem _ _ _ _ _ hs
  exact inversion_applySeq_oneHot (hx seq hseq)

/-! ## RandomTranslocation: shape and one-hot preservation -/

lemma translocation_call_shape {N A L : ℕ} {shifts : List ℤ} {x : Batch}
    (hsh : shifts.length = N) (hx : batchShape N A L x) :
    batchShape N A L (RandomTranslocation.call shifts x) := by
  obtain ⟨hxl, hxs⟩ := hx
  constructor
  · rw [RandomTranslocation.call, List.length_zipWith, hsh, hxl, min_self]
  · intro s hs
    obtain ⟨shift, _, seq, hseq, rfl⟩ := zipWith_forall_mem _ _ _ _ hs
    exact torch.roll_shape shift (hxs seq hseq)

lemma translocation_call_oneHot {shifts : List ℤ} {x : Batch}
    (hx : oneHotBatch x) : oneHotBatch (RandomTranslocation.call shifts x) := by
  intro s hs
  obtain ⟨shift, _, seq, hseq, rfl⟩ := zipWith_forall_mem _ _ _ _ hs
  exact torch.roll_oneHot shift (hx seq hseq)

/-! ## RandomMutation: shape and one-hot preservation -/

lemma foldl_set_length (ps : List (ℕ × Col)) :
    ∀ s : Seqn, (ps.foldl (fun t pm => t.set pm.1 pm.2) s).length = s.length := by
  induction ps with
  | nil => intro s; rfl
  | cons p ps ih =>
    intro s
    rw [List.foldl_cons, ih, List.length_set]

lemma foldl_set_forall_mem (ps : List (ℕ × Col)) :
    ∀ (s : Seqn) (c : Col), c ∈ ps.foldl (fun t pm => t.set pm.1 pm.2) s →
      c ∈ s ∨ ∃ pm ∈ ps, c = pm.2 := by
  induction ps with
  | nil => intro s c hc; exact Or.inl hc
  | cons p ps ih =>
    intro s c hc
    rw [List.foldl_cons] at hc
    rcases ih _ c hc with h | ⟨pm, hpm, rfl⟩
    · rcases List.mem_or_eq_of_mem_set h with h2 | h2
      · exact Or.inl h2
      · exact Or.inr ⟨p, by simp, h2⟩
    · exact Or.inr ⟨pm, List.mem_cons_of_mem _ hpm, rfl⟩

lemma mutation_applySeq_shape {A L : ℕ} {inds : List ℕ} {muts seq : Seqn}
    (hmc : ∀ c ∈ muts, c.length = A) (hs : seqShape A L seq) :
    seqShape A L (RandomMutation.applySeq inds muts seq) := by
  obtain ⟨hsl, hsc⟩ := hs
  constructor
  · rw [RandomMutation.applySeq, foldl_set_length, hsl]
  · intro c hc
    rcases foldl_set_forall_mem _ _ _ hc with h | ⟨pm, hpm, rfl⟩
    · exact hsc c h
    · exact hmc pm.2 (List.of_mem_zip hpm).2

lemma mutation_applySeq_oneHot {inds : List ℕ} {muts seq : Seqn}
    (hm : oneHotSeq muts) (hs : oneHotSeq seq) :
    oneHotSeq (RandomMutation.applySeq inds muts seq) := by
  intro c hc
  rcases foldl_set_forall_mem _ _ _ hc with h | ⟨pm, hpm, rfl⟩
  · exact hs c h
  · exact hm pm.2 (List.of_mem_zip hpm).2

lemma mutation_call_shape {N A L : ℕ}
    {indss : List (List ℕ)} {mutss : List Seqn} {x : Batch}
    (hil : indss.length = N) (hml : mutss.length = N)
    (hmc : ∀ m ∈ mutss, ∀ c ∈ m, c.length = A)
    (hx : batchShape N A L x) :
    batchShape N A L (RandomMutation.call indss mutss x) := by
  obtain ⟨hxl, hxs⟩ := hx
  constructor
  · exact zipWith3_length _ N _ _ _ hil hml hxl
  · intro s hs
    obtain ⟨inds, _, muts, hmuts, seq, hseq, rfl⟩ := zipWith3_forall_mem _ _ _ _ _ hs
    exact mutation_applySeq_shape (hmc muts hmuts) (hxs seq hseq)

lemma mutation_call_oneHot {indss : List (List ℕ)} {mutss : List Seqn} {x : Batch}
    (hm : ∀ m ∈ mutss, oneHotSeq m) (hx : oneHotBatch x) :
    oneHotBatch (RandomMutation.call indss mutss x) := by
  intro s hs
  obtain ⟨inds, _, muts, hmuts, seq, hseq, rfl⟩ := zipWith3_forall_mem _ _ _ _ _ hs
  exact mutation_applySeq_oneHot (hm muts hmuts) (hx seq hseq)

/-! ## RandomRC: shape and one-hot preservation -/

lemma rc_call_shape {N A L : ℕ} {rc_prob : ℚ} {r : List ℚ} {x : Batch}
    (hr : r.length = N) (hx : batchShape N A L x) :
    batchShape N A L (RandomRC.call rc_prob r x) := by
  obtain ⟨hxl, hxs⟩ := hx
  constructor
  · rw [RandomRC.call, List.length_zipWith, hr, hxl, min_self]
  · intro s hs
    obtain ⟨v, _, seq, hseq, rfl⟩ := zipWith_forall_mem _ _ _ _ hs
    by_cases h : v < rc_prob
    · rw [if_pos h]; exact torch.flip01_shape (hxs seq hseq)
    · rw [if_neg h]; exact hxs seq hseq

lemma rc_call_oneHot {rc_prob : ℚ} {r : List ℚ} {x : Batch}
    (hx : oneHotBatch x) : oneHotBatch (RandomRC.call rc_prob r x) := by
  intro s hs
  obtain ⟨v, _, seq, hseq, rfl⟩ := zipWith_forall_mem _ _ _ _ hs
  by_cases h : v < rc_prob
  · rw [if_pos h]; exact torch.flip01_oneHot (hx seq hseq)
  · rw [if_neg h]; exact hx seq hseq

/-! ## RandomNoise: shape preservation -/

lemma noise_call_shape {N A L : ℕ} {noise x : Batch}
    (hn : batchShape N A L noise) (hx : batchShape N A L x) :
    batchShape N A L (RandomNoise.call noise x) := by
  obtain ⟨hnl, hns⟩ := hn
  obtain ⟨hxl, hxs⟩ := hx
  constructor
  · rw [RandomNoise.call, List.length_zipWith, hnl, hxl, min_self]
  · intro s hs
    obtain ⟨seq, hseq, nseq, hnseq, rfl⟩ := zipWith_forall_mem _ _ _ _ hs
    obtain ⟨hsl, hsc⟩ := hxs seq hseq
    obtain ⟨hnsl, hnsc⟩ := hns nseq hnseq
    constructor
    · rw [List.length_zipWith, hsl, hnsl, min_self]
    · intro c hc
      obtain ⟨c1, hc1, c2, hc2, rfl⟩ := zipWith_forall_mem _ _ _ _ hc
      rw [List.length_zipWith, hsc c1 hc1, hnsc c2 hc2, min_self]

/-! ## Further helper lemmas -/

lemma torch.randint_eq_none (lo hi : ℤ) : torch.randint lo hi = none ↔ hi ≤ lo := by
  rw [torch.randint]
  by_cases h : lo < hi
  · rw [if_pos h]; simp; omega
  · rw [if_neg h]; simp; omega

lemma rc_call_one {r : List ℚ} {x : Batch}
    (hr : r.length = x.length) (hv : ∀ v ∈ r, v < 1) :
    RandomRC.call 1 r x = x.map torch.flip01 := by
  induction r generalizing x with
  | nil =>
    have hx : x = [] := List.length_eq_zero.mp (by simpa using hr.symm)
    simp [RandomRC.call, hx]
  | cons v r ih =>
    cases x with
    | nil => simp at hr
    | cons s x =>
      simp only [List.length_cons] at hr
      rw [RandomRC.call, List.zipWith_cons_cons, List.map_cons,
        if_pos (hv v (by simp))]
      congr 1
      exact ih (by omega) (fun w hw => hv w (List.mem_cons_of_mem _ hw))

lemma deletion_applySeq_zero (ind : ℕ) (seq : Seqn) :
    RandomDeletion.applySeq 0 [] 0 ind seq = seq := by
  simp [RandomDeletion.applySeq, RandomDeletion.padBegin, RandomDeletion.padEnd]

/-! ## Claims -/

/-- Claim C1, counterexample: the shape-invariance claim is false for
RandomInsertion.  For the valid input batch of shape (1, 2, 1) and draws the
code can make with insert_min = insert_max = 1, the output does not have
shape (1, 2, 1): it has an extra insert_max columns. -/
theorem C1_counterexample :
    batchShape 1 2 1 [[[1, 0]]] ∧
    RandomInsertion.validDraws ⟨1, 1⟩ 1 2 1 [[[0, 1]]] [1] [0] ∧
    ¬ batchShape 1 2 1 (RandomInsertion.call ⟨1, 1⟩ [[[0, 1]]] [1] [0] [[[1, 0]]]) := by
  decide

/-- Claim C1 (amended): for every valid input batch of shape (N, A, L) and
all draws the code can make, Deletion, Translocation, Inversion, Mutation,
Reverse-Complement and Noise return a batch of the identical shape
(N, A, L); RandomInsertion alone returns shape (N, A, L + insert_max). -/
theorem C1_shape_invariance
    (N A L : ℕ) (x : Batch) (hx : batchShape N A L x)
    (cfgD : RandomDeletion) (pads : List Seqn) (dlens dinds : List ℕ)
    (hD : cfgD.validDraws N A L pads dlens dinds)
    (cfgI : RandomInsertion) (inss : List Seqn) (ilens iinds : List ℕ)
    (hI : cfgI.validDraws N A L inss ilens iinds)
    (shifts : List ℤ) (hS : shifts.length = N)
    (cfgV : RandomInversion) (vlens vinds : List ℕ)
    (hV : cfgV.validDraws N L vlens vinds)
    (indss : List (List ℕ)) (mutss : List Seqn)
    (hM1 : indss.length = N) (hM2 : mutss.length = N)
    (hM3 : ∀ m ∈ mutss, ∀ c ∈ m, c.length = A)
    (rc_prob : ℚ) (r : List ℚ) (hR : r.length = N)
    (noise : Batch) (hNo : batchShape N A L noise) :
    batchShape N A L (RandomDeletion.call cfgD pads dlens dinds x) ∧
    batchShape N A (L + cfgI.insert_max) (RandomInsertion.call cfgI inss ilens iinds x) ∧
    batchShape N A L (RandomTranslocation.call shifts x) ∧
    batchShape N A L (RandomInversion.call vlens vinds x) ∧
    batchShape N A L (RandomMutation.call indss mutss x) ∧
    batchShape N A L (RandomRC.call rc_prob r x) ∧
    batchShape N A L (RandomNoise.call noise x) :=
  ⟨deletion_call_shape hD hx, insertion_call_shape hI hx,
   translocation_call_shape hS hx, inversion_call_shape hV hx,
   mutation_call_shape hM1 hM2 hM3 hx, rc_call_shape hR hx,
   noise_call_shape hNo hx⟩

/-- Claim C1, witness: the amended shape theorem evaluated on a concrete
batch of shape (1, 2, 2) with concrete draws for all seven primitives. -/
theorem C1_shape_invariance_witness :
    batchShape 1 2 2 (RandomDeletion.call ⟨1, 1⟩ [[[1, 0]]] [1] [0] [[[1, 0], [0, 1]]]) ∧
    batchShape 1 2 3 (RandomInsertion.call ⟨1, 1⟩ [[[0, 1]]] [1] [0] [[[1, 0], [0, 1]]]) ∧
    batchShape 1 2 2 (RandomTranslocation.call [1] [[[1, 0], [0, 1]]]) ∧
    batchShape 1 2 2 (RandomInversion.call [1] [0] [[[1, 0], [0, 1]]]) ∧
    batchShape 1 2 2 (RandomMutation.call [[0]] [[[0, 1]]] [[[1, 0], [0, 1]]]) ∧
    batchShape 1 2 2 (RandomRC.call (1/2) [0] [[[1, 0], [0, 1]]]) ∧
    batchShape 1 2 2 (RandomNoise.call [[[0, 0], [0, 0]]] [[[1, 0], [0, 1]]]) := by
  exact C1_shape_invariance 1 2 2 [[[1, 0], [0, 1]]] (by decide)
    ⟨1, 1⟩ [[[1, 0]]] [1] [0] (by decide)
    ⟨1, 1⟩ [[[0, 1]]] [1] [0] (by decide)
    [1] (by decide)
    ⟨1, 1⟩ [1] [0] (by decide)
    [[0]] [[[0, 1]]] (by decide) (by decide) (by decide)
    (1/2) [0] (by decide)
    [[[0, 0], [0, 0]]] (by decide)

/-- Claim C2: for every valid input batch of shape (N, A, L) and all draws
the code can make, RandomInsertion.__call__ returns a batch of shape
(N, A, L + insert_max) — in particular the output length along the last
axis is L + insert_max for every example, regardless of each example's
realized insertion length. -/
theorem C2_insertion_output_shape
    (cfg : RandomInsertion) (N A L : ℕ)
    (insertions : List Seqn) (lens inds : List ℕ) (x : Batch)
    (hx : batchShape N A L x)
    (hd : cfg.validDraws N A L insertions lens inds) :
    batchShape N A (L + cfg.insert_max)
      (RandomInsertion.call cfg insertions lens inds x) :=
  insertion_call_shape hd hx

/-- Claim C2, witness: a batch of two examples with different realized
insertion lengths (0 and 1) still yields output shape (2, 2, 1 + 1). -/
theorem C2_insertion_output_shape_witness :
    batchShape 2 2 2
      (RandomInsertion.call ⟨0, 1⟩ [[[1, 0]], [[0, 1]]] [0, 1] [0, 0]
        [[[1, 0]], [[0, 1]]]) := by
  exact C2_insertion_output_shape ⟨0, 1⟩ 2 2 1 [[[1, 0]], [[0, 1]]] [0, 1] [0, 0]
    [[[1, 0]], [[0, 1]]] (by decide) (by decide)

/-- Claim C3, counterexample: the insertion index is drawn by
`torch.randint(L, (N,))`, whose support for L = 3 is [0, 3) — the index
L = 3 is not in the support, so insertion at the very end never occurs,
contradicting the claimed inclusive range [0, L]. -/
theorem C3_counterexample :
    RandomInsertion.indSet 3 = some (Finset.Ico (0 : ℤ) 3) ∧
    (3 : ℤ) ∉ Finset.Ico (0 : ℤ) 3 := by decide

/-- Claim C3 (amended): for every L > 0 the per-example insertion index is
drawn uniformly from the half-open range [0, L-1] = [0, L); the index L
(insertion at the very end) is never drawn. -/
theorem C3_insertion_index_range (L : ℕ) (hL : 0 < L) :
    RandomInsertion.indSet L = some (Finset.Ico (0 : ℤ) (L : ℤ)) ∧
    (∀ i : ℤ, i ∈ Finset.Ico (0 : ℤ) (L : ℤ) ↔ 0 ≤ i ∧ i ≤ (L : ℤ) - 1) ∧
    (L : ℤ) ∉ Finset.Ico (0 : ℤ) (L : ℤ) := by
  refine ⟨?_, ?_, ?_⟩
  · rw [RandomInsertion.indSet, torch.randint, if_pos (by exact_mod_cast hL)]
  · intro i
    rw [Finset.mem_Ico]
    omega
  · rw [Finset.mem_Ico]
    omega

/-- Claim C3, witness: the amended range theorem at L = 3. -/
theorem C3_insertion_index_range_witness :
    RandomInsertion.indSet 3 = some (Finset.Ico (0 : ℤ) (3 : ℤ)) ∧
    (∀ i : ℤ, i ∈ Finset.Ico (0 : ℤ) (3 : ℤ) ↔ 0 ≤ i ∧ i ≤ (3 : ℤ) - 1) ∧
    (3 : ℤ) ∉ Finset.Ico (0 : ℤ) (3 : ℤ) := by
  exact C3_insertion_index_range 3 (by decide)

/-- Claim C4: under delete_min ≤ delete_max ≤ L (resp.
invert_min ≤ invert_max ≤ L), the samplers of RandomDeletion and
RandomInversion succeed, the extreme lengths min and max are both in the
length support, and every sampled (start, length) pair keeps the accessed
interval [start, start + length) inside [0, L). -/
theorem C4_bound_safety (cfgD : RandomDeletion) (cfgV : RandomInversion) (L : ℕ)
    (hD1 : cfgD.delete_min ≤ cfgD.delete_max) (hD2 : cfgD.delete_max ≤ L)
    (hV1 : cfgV.invert_min ≤ cfgV.invert_max) (hV2 : cfgV.invert_max ≤ L) :
    (∃ ls si, cfgD.lenSet = some ls ∧ cfgD.indSet L = some si ∧
      (cfgD.delete_min : ℤ) ∈ ls ∧ (cfgD.delete_max : ℤ) ∈ ls ∧
      ∀ len ∈ ls, ∀ ind ∈ si, 0 ≤ ind ∧ ind + len ≤ (L : ℤ)) ∧
    (∃ ls si, cfgV.lenSet = some ls ∧ cfgV.indSet L = some si ∧
      (cfgV.invert_min : ℤ) ∈ ls ∧ (cfgV.invert_max : ℤ) ∈ ls ∧
      ∀ len ∈ ls, ∀ ind ∈ si, 0 ≤ ind ∧ ind + len ≤ (L : ℤ)) := by
  constructor
  · refine ⟨Finset.Ico (cfgD.delete_min : ℤ) ((cfgD.delete_max : ℤ) + 1),
      Finset.Ico 0 ((L : ℤ) - (cfgD.delete_max : ℤ) + 1), ?_, ?_, ?_, ?_, ?_⟩
    · rw [RandomDeletion.lenSet, torch.randint, if_pos (by omega)]
    · rw [RandomDeletion.indSet, torch.randint, if_pos (by omega)]
    · rw [Finset.mem_Ico]; omega
    · rw [Finset.mem_Ico]; omega
    · intro len hlen ind hind
      rw [Finset.mem_Ico] at hlen hind
      omega
  · refine ⟨Finset.Ico (cfgV.invert_min : ℤ) ((cfgV.invert_max : ℤ) + 1),
      Finset.Ico 0 ((L : ℤ) - (cfgV.invert_max : ℤ) + 1), ?_, ?_, ?_, ?_, ?_⟩
    · rw [RandomInversion.lenSet, torch.randint, if_pos (by omega)]
    · rw [RandomInversion.indSet, torch.randint, if_pos (by omega)]
    · rw [Finset.mem_Ico]; omega
    · rw [Finset.mem_Ico]; omega
    · intro len hlen ind hind
      rw [Finset.mem_Ico] at hlen hind
      omega

/-- Claim C4, witness: the bound-safety theorem for Deletion(0, 2) and
Inversion(1, 2) on sequences of length L = 3. -/
theorem C4_bound_safety_witness :
    (∃ ls si, RandomDeletion.lenSet ⟨0, 2⟩ = some ls ∧
      RandomDeletion.indSet ⟨0, 2⟩ 3 = some si ∧
      ((0 : ℕ) : ℤ) ∈ ls ∧ ((2 : ℕ) : ℤ) ∈ ls ∧
      ∀ len ∈ ls, ∀ ind ∈ si, 0 ≤ ind ∧ ind + len ≤ ((3 : ℕ) : ℤ)) ∧
    (∃ ls si, RandomInversion.lenSet ⟨1, 2⟩ = some ls ∧
      RandomInversion.indSet ⟨1, 2⟩ 3 = some si ∧
      ((1 : ℕ) : ℤ) ∈ ls ∧ ((2 : ℕ) : ℤ) ∈ ls ∧
      ∀ len ∈ ls, ∀ ind ∈ si, 0 ≤ ind ∧ ind + len ≤ ((3 : ℕ) : ℤ)) := by
  exact C4_bound_safety ⟨0, 2⟩ ⟨1, 2⟩ 3 (by decide) (by decide) (by decide) (by decide)

/-- Claim C5: the number of positions sampled for substitution equals
round(mutate_frac / 0.75 × L) exactly — 27 for L = 200 and
mutate_frac = 0.1 — and the positions selected within each sequence
(the first k entries of an argsort permutation of range L) are pairwise
distinct. -/
theorem C5_mutation_count :
    RandomMutation.numMutations (1/10) 200 = 27 ∧
    ∀ (L k : ℕ) (perm : List ℕ), perm.Perm (List.range L) →
      (RandomMutation.mutationInds k perm).Nodup := by
  constructor
  · norm_num [RandomMutation.numMutations, pythonRound]
  · intro L k perm hperm
    exact (hperm.nodup_iff.mpr (List.nodup_range L)).sublist (List.take_sublist k perm)

/-- Claim C5, witness: the count and the distinctness evaluated at the
concrete permutation range 200 with k = 27. -/
theorem C5_mutation_count_witness :
    RandomMutation.numMutations (1/10) 200 = 27 ∧
    (RandomMutation.mutationInds 27 (List.range 200)).Nodup :=
  ⟨C5_mutation_count.1, C5_mutation_count.2 200 27 (List.range 200) (List.Perm.refl _)⟩

/-- Claim C6: with rc_prob = 1 every `torch.rand` draw (a value in [0,1))
selects the example, so the per-example transform is forced, and applying
RandomRC twice returns the original batch exactly: the simultaneous flip of
the alphabet and length axes is an involution. -/
theorem C6_rc_involution (x : Batch) (r1 r2 : List ℚ)
    (h1 : r1.length = x.length) (h2 : r2.length = x.length)
    (hv1 : ∀ v ∈ r1, 0 ≤ v ∧ v < 1) (hv2 : ∀ v ∈ r2, 0 ≤ v ∧ v < 1) :
    RandomRC.call 1 r2 (RandomRC.call 1 r1 x) = x := by
  rw [rc_call_one h1 (fun v hv => (hv1 v hv).2),
    rc_call_one (by rw [List.length_map]; exact h2) (fun v hv => (hv2 v hv).2),
    List.map_map]
  have hcomp : torch.flip01 ∘ torch.flip01 = id := funext torch.flip01_flip01
  rw [hcomp, List.map_id]

/-- Claim C6, witness: the double reverse-complement on a concrete batch of
one (2, 2) example with concrete in-range rand draws. -/
theorem C6_rc_involution_witness :
    RandomRC.call 1 [0] (RandomRC.call 1 [0] [[[1, 0], [0, 1]]]) = [[[1, 0], [0, 1]]] := by
  exact C6_rc_involution [[[1, 0], [0, 1]]] [0] [0]
    (by decide) (by decide) (by norm_num) (by norm_num)

/-- Claim C7: code bug.  With delete_min = delete_max = 0 the very first
step of `RandomDeletion.__call__` (line 61) calls
torch.multinomial(p, 0, replacement=True), which raises 'cannot sample
n_sample <= 0 samples': the call produces no output at all, so the claimed
no-op-plus-zero-padding behaviour never happens (first conjunct: the
padding sampler errors for every alphabet size A).  The claim describes
the evident intent: on the error-collapsed draw model the rest of the loop
does return the input batch unchanged with total padding
padBegin + padEnd = delete_max = 0 (second conjunct), so the unconditional
multinomial call is the slip. -/
theorem C7_deletion_zero_crash :
    (∀ A : ℕ, RandomDeletion.paddingDraws ⟨0, 0⟩ A = none) ∧
    (∀ (N A L : ℕ) (pads : List Seqn) (lens inds : List ℕ) (x : Batch),
      batchShape N A L x →
      RandomDeletion.validDraws ⟨0, 0⟩ N A L pads lens inds →
      RandomDeletion.call ⟨0, 0⟩ pads lens inds x = x ∧
      ∀ l ∈ lens, RandomDeletion.padBegin l + RandomDeletion.padEnd l =
        (⟨0, 0⟩ : RandomDeletion).delete_max) := by
  constructor
  · intro A
    rfl
  · intro N A L pads lens inds x hx hd
    obtain ⟨hp, hpc, hl, hlb, hi, _⟩ := hd
    constructor
    · rw [RandomDeletion.call]
      apply zipWith4_eq_fourth
      · rw [hp, hx.1]
      · rw [hl, hx.1]
      · rw [hi, hx.1]
      · intro pad hpad len hlen ind _ seq _
        have hpe : pad = [] := List.length_eq_zero.mp (hpc pad hpad).1
        have hle : len = 0 := Nat.le_zero.mp (hlb len hlen).2
        rw [hpe, hle]
        exact deletion_applySeq_zero ind seq
    · intro l hl2
      have hl0 : l = 0 := Nat.le_zero.mp (hlb l hl2).2
      subst hl0
      rfl

/-- Claim C7, witness: the padding sampler error at A = 4, and the
intended no-op behaviour on a concrete (1, 2, 1) batch with the only
possible remaining draws. -/
theorem C7_deletion_zero_crash_witness :
    RandomDeletion.paddingDraws ⟨0, 0⟩ 4 = none ∧
    (RandomDeletion.call ⟨0, 0⟩ [[]] [0] [0] [[[1, 0]]] = [[[1, 0]]] ∧
      ∀ l ∈ [0], RandomDeletion.padBegin l + RandomDeletion.padEnd l =
        (⟨0, 0⟩ : RandomDeletion).delete_max) :=
  ⟨C7_deletion_zero_crash.1 4,
   C7_deletion_zero_crash.2 1 2 1 [[]] [0] [0] [[[1, 0]]] (by decide) (by decide)⟩

/-- Claim C8, counterexample: for realized deletion length 1 the front pad
gets 0 columns and the back pad gets 1, so the extra odd position goes to
the back, not the front; on a concrete (1, 2) sequence with pad column [3]
the random padding lands at the end of the output. -/
theorem C8_counterexample :
    RandomDeletion.padBegin 1 = 0 ∧ RandomDeletion.padEnd 1 = 1 ∧
    RandomDeletion.padBegin 1 < RandomDeletion.padEnd 1 ∧
    RandomDeletion.applySeq 1 [[3]] 1 0 [[1], [2]] = [[2], [3]] := by decide

/-- Claim C8 (amended): the padding that restores length L is split as
evenly as possible between the two ends, and when the total is odd the
extra position goes to the BACK half: the front pad is the floor half,
delete_len / 2, and the back pad exceeds it by at most one. -/
theorem C8_padding_split (delete_len : ℕ) :
    RandomDeletion.padBegin delete_len + RandomDeletion.padEnd delete_len = delete_len ∧
    RandomDeletion.padBegin delete_len ≤ RandomDeletion.padEnd delete_len ∧
    RandomDeletion.padEnd delete_len ≤ RandomDeletion.padBegin delete_len + 1 := by
  unfold RandomDeletion.padEnd RandomDeletion.padBegin
  omega

/-- Claim C9, counterexample: constructing RandomDeletion and
RandomInsertion with min = 1 > 0 = max succeeds and stores the invalid
bounds (no configuration error at construction time, contradicting the
claim); the spec-modelled checked constructor would reject it, and the
error actually surfaces only at call time, where the length sampler's
randint range is empty. -/
theorem C9_counterexample :
    RandomDeletion.initChecked 1 0 = none ∧
    RandomDeletion.init 1 0 = ⟨1, 0⟩ ∧
    RandomDeletion.lenSet ⟨1, 0⟩ = none ∧
    RandomInsertion.initChecked 1 0 = none ∧
    RandomInsertion.init 1 0 = ⟨1, 0⟩ ∧
    RandomInsertion.lenSet ⟨1, 0⟩ = none := by decide

/-- Claim C9 (amended): for all four bounded primitives, construction
stores the given bounds unvalidated and always succeeds; a configuration
with min > max fails at first call, where the
torch.randint(min, max + 1) sampler has an empty range and errors. -/
theorem C9_no_construction_validation (bmin bmax : ℕ) :
    RandomDeletion.init bmin bmax = ⟨bmin, bmax⟩ ∧
    RandomInsertion.init bmin bmax = ⟨bmin, bmax⟩ ∧
    RandomTranslocation.init bmin bmax = ⟨bmin, bmax⟩ ∧
    RandomInversion.init bmin bmax = ⟨bmin, bmax⟩ ∧
    (RandomDeletion.lenSet ⟨bmin, bmax⟩ = none ↔ bmax < bmin) ∧
    (RandomInsertion.lenSet ⟨bmin, bmax⟩ = none ↔ bmax < bmin) ∧
    (RandomTranslocation.shiftSet ⟨bmin, bmax⟩ = none ↔ bmax < bmin) ∧
    (RandomInversion.lenSet ⟨bmin, bmax⟩ = none ↔ bmax < bmin) := by
  refine ⟨rfl, rfl, rfl, rfl, ?_, ?_, ?_, ?_⟩
  · rw [RandomDeletion.lenSet, torch.randint_eq_none]
    show (bmax : ℤ) + 1 ≤ (bmin : ℤ) ↔ bmax < bmin
    omega
  · rw [RandomInsertion.lenSet, torch.randint_eq_none]
    show (bmax : ℤ) + 1 ≤ (bmin : ℤ) ↔ bmax < bmin
    omega
  · rw [RandomTranslocation.shiftSet, torch.randint_eq_none]
    show (bmax : ℤ) + 1 ≤ (bmin : ℤ) ↔ bmax < bmin
    omega
  · rw [RandomInversion.lenSet, torch.randint_eq_none]
    show (bmax : ℤ) + 1 ≤ (bmin : ℤ) ↔ bmax < bmin
    omega

/-- Claim C10: on any exactly one-hot batch, with any draws the code can
make, Deletion, Insertion, Translocation, Inversion, Mutation and RC all
return an exactly one-hot batch; RandomNoise breaks the property (witnessed
by a one-hot batch and a noise draw whose sum is not one-hot). -/
theorem C10_one_hot_preservation
    (N A L nm : ℕ) (x : Batch) (hx : oneHotBatch x)
    (cfgD : RandomDeletion) (pads : List Seqn) (dlens dinds : List ℕ)
    (hD : cfgD.validDraws N A L pads dlens dinds)
    (cfgI : RandomInsertion) (inss : List Seqn) (ilens iinds : List ℕ)
    (hI : cfgI.validDraws N A L inss ilens iinds)
    (shifts : List ℤ) (vlens vinds : List ℕ)
    (indss : List (List ℕ)) (mutss : List Seqn)
    (hM : ∀ m ∈ mutss, eyeDraw A nm m)
    (rc_prob : ℚ) (r : List ℚ) :
    oneHotBatch (RandomDeletion.call cfgD pads dlens dinds x) ∧
    oneHotBatch (RandomInsertion.call cfgI inss ilens iinds x) ∧
    oneHotBatch (RandomTranslocation.call shifts x) ∧
    oneHotBatch (RandomInversion.call vlens vinds x) ∧
    oneHotBatch (RandomMutation.call indss mutss x) ∧
    oneHotBatch (RandomRC.call rc_prob r x) ∧
    (oneHotBatch ([[[1, 0]]] : Batch) ∧
      ¬ oneHotBatch (RandomNoise.call [[[1, 0]]] [[[1, 0]]])) := by
  refine ⟨deletion_call_oneHot hD hx, insertion_call_oneHot hI hx,
    translocation_call_oneHot hx, inversion_call_oneHot hx,
    mutation_call_oneHot (fun m hm => eyeDraw_oneHot (hM m hm)) hx,
    rc_call_oneHot hx, by decide, ?_⟩
  have heval : RandomNoise.call [[[1, 0]]] [[[1, 0]]] = [[[2, 0]]] := by
    norm_num [RandomNoise.call]
  rw [heval]
  decide

/-- Claim C10, witness: the six preserving primitives evaluated on a
concrete one-hot (1, 2, 2) batch with concrete draws, and the concrete
noise violation. -/
theorem C10_one_hot_preservation_witness :
    oneHotBatch (RandomDeletion.call ⟨1, 1⟩ [[[1, 0]]] [1] [0] [[[1, 0], [0, 1]]]) ∧
    oneHotBatch (RandomInsertion.call ⟨1, 1⟩ [[[0, 1]]] [1] [0] [[[1, 0], [0, 1]]]) ∧
    oneHotBatch (RandomTranslocation.call [1] [[[1, 0], [0, 1]]]) ∧
    oneHotBatch (RandomInversion.call [1] [0] [[[1, 0], [0, 1]]]) ∧
    oneHotBatch (RandomMutation.call [[0]] [[[0, 1]]] [[[1, 0], [0, 1]]]) ∧
    oneHotBatch (RandomRC.call (1/2) [0] [[[1, 0], [0, 1]]]) ∧
    (oneHotBatch ([[[1, 0]]] : Batch) ∧
      ¬ oneHotBatch (RandomNoise.call [[[1, 0]]] [[[1, 0]]])) := by
  exact C10_one_hot_preservation 1 2 2 1 [[[1, 0], [0, 1]]] (by decide)
    ⟨1, 1⟩ [[[1, 0]]] [1] [0] (by decide)
    ⟨1, 1⟩ [[[0, 1]]] [1] [0] (by decide)
    [1] [1] [0] [[0]] [[[0, 1]]] (by decide) (1/2) [0]
